import Mathlib

/-!
Verification of the ZenSense focus-timer engine.

The definitions below are a shallow embedding of the timer logic of the
repository.  The authoritative engine is the wall-clock anchored,
pause-aware variant (the timer and bell scheduler, the start, pause and
reset handlers).  Timestamps and millisecond quantities are modelled as
`Int` (JavaScript `Date.now()` values and their differences); the
JavaScript `Math.floor(x / k)` on integers is `Int` euclidean division
`x / k`, which agrees with floor for positive `k`.
-/

namespace ZenSense

/-- The mutable refs and state of the timer engine, taken from the anchored
variant: `running`, `hasStarted`, `anchorMsRef`, `offsetMsRef`,
`lastBellCountRef`, the displayed `elapsed` seconds and the `bellInterval`
selection in minutes. -/
structure Engine where
  running : Bool
  hasStarted : Bool
  anchorMs : Option Int
  offsetMs : Int
  lastBellCount : Int
  elapsed : Int
  bellInterval : Int
deriving DecidableEq, Repr

/-- Initial state: fresh page load with a chosen bell interval (the source
initialises `running = false`, `hasStarted = false`, `anchorMsRef = null`,
`offsetMsRef = 0`, `lastBellCountRef = 0`, `elapsed = 0`). -/
def Engine.init (bellInterval : Int) : Engine :=
  { running := false
    hasStarted := false
    anchorMs := none
    offsetMs := 0
    lastBellCount := 0
    elapsed := 0
    bellInterval := bellInterval }

/-- The bell period in milliseconds: `const period = bellInterval * 60000`. -/
def bellPeriodMs (e : Engine) : Int := e.bellInterval * 60000

/-- Result of one `tick` call: the new engine state and the number of bell
events dispatched during the call (the source calls `playBell()` at most
once per tick). -/
structure TickResult where
  engine : Engine
  bells : Nat
deriving DecidableEq, Repr

/-- One firing of the 250 ms interval callback `tick` of the anchored
variant: no-op unless running; re-anchors if the anchor is unset (the
safety branch); computes `elapsedMs = offsetMs + (now - anchorMs)`,
displays `Math.max(0, Math.floor(elapsedMs / 1000))`, and if
`Math.floor(elapsedMs / period)` exceeds `lastBellCount` plays the bell
once and stores the new count. -/
def tick (e : Engine) (now : Int) : TickResult :=
  if e.running = false then ⟨e, 0⟩
  else
    let anchor := e.anchorMs.getD now
    let elapsedMs := e.offsetMs + (now - anchor)
    let secs := max 0 (elapsedMs / 1000)
    let e₁ : Engine := { e with anchorMs := some anchor, elapsed := secs }
    if 0 < bellPeriodMs e₁ then
      let countNow := elapsedMs / bellPeriodMs e₁
      if e₁.lastBellCount < countNow then
        ⟨{ e₁ with lastBellCount := countNow }, 1⟩
      else ⟨e₁, 0⟩
    else ⟨e₁, 0⟩

/-- The `start` handler of the anchored variant, restricted to the engine
state: `firstStart = !hasStarted`; if not running and the anchor is null,
the anchor is set to `now`; then `running := true`, `hasStarted := true`;
on a first start the bell counter is reset to 0 and `playBell()` rings the
session-start bell once.  The returned number counts the bell events
dispatched by this call. -/
def start (e : Engine) (now : Int) : Engine × Nat :=
  let firstStart := !e.hasStarted
  let anchor := if e.running = false && e.anchorMs.isNone then some now else e.anchorMs
  let e₁ : Engine := { e with anchorMs := anchor, running := true, hasStarted := true }
  if firstStart then ({ e₁ with lastBellCount := 0 }, 1) else (e₁, 0)

/-- The `pause` handler: no-op unless running; folds the live interval into
the offset (`offsetMs += now - anchorMs`, with no clamping), clears the
anchor and stops. -/
def pause (e : Engine) (now : Int) : Engine :=
  if e.running = false then e
  else
    match e.anchorMs with
    | some a =>
        { e with offsetMs := e.offsetMs + (now - a), anchorMs := none, running := false }
    | none => { e with running := false }

/-- The `reset` handler: stops, zeroes the display, forgets the session,
clears the timing refs and the bell counter.  The bell interval selection
is not touched. -/
def reset (e : Engine) : Engine :=
  { e with running := false, elapsed := 0, hasStarted := false,
           anchorMs := none, offsetMs := 0, lastBellCount := 0 }

/-- A user or scheduler event applied to the engine, tagged with the
`Date.now()` timestamp observed during the call. -/
inductive Op where
  | start (now : Int)
  | pause (now : Int)
  | tick (now : Int)
deriving DecidableEq, Repr

/-- The timestamp of an event. -/
def Op.time : Op → Int
  | .start t => t
  | .pause t => t
  | .tick t => t

/-- Apply one event to the engine (discarding the bell signals). -/
def step (e : Engine) (op : Op) : Engine :=
  match op with
  | .start now => (start e now).1
  | .pause now => pause e now
  | .tick now => (tick e now).engine

/-- Apply a sequence of events. -/
def run (e : Engine) (ops : List Op) : Engine := ops.foldl step e

/-- `chrono t₀ ops` holds when the event timestamps are non-decreasing and
all at least `t₀`. -/
def chrono (t₀ : Int) : List Op → Bool
  | [] => true
  | op :: ops => decide (t₀ ≤ op.time) && chrono op.time ops

/-- The timestamp of the last event, or `t₀` for the empty sequence. -/
def lastTime (t₀ : Int) : List Op → Int
  | [] => t₀
  | op :: ops => lastTime op.time ops

/-- The elapsed milliseconds of the session at wall-clock instant `now`:
the accumulated offset, plus the live interval when an anchor is set.
This is the quantity the tick handler computes as
`offsetMs + (now - anchorMs)` while running, and plain `offsetMs` while
paused. -/
def elapsedAt (e : Engine) (now : Int) : Int :=
  e.offsetMs + (match e.anchorMs with | some a => now - a | none => 0)

/-- Reference function following the specification wording for elapsed
time: the sum of the durations of all Running intervals of the event
sequence, measured up to instant `now`.  Scanning the events, a `start`
while no interval is open opens one at its timestamp; a `pause` while an
interval is open closes it and contributes its duration; every other
event contributes nothing; an interval still open at the end contributes
up to `now`. -/
def runningSum : Option Int → List Op → Int → Int
  | none, [], _ => 0
  | some s, [], now => now - s
  | none, Op.start t :: ops, now => runningSum (some t) ops now
  | none, Op.pause _ :: ops, now => runningSum none ops now
  | none, Op.tick _ :: ops, now => runningSum none ops now
  | some s, Op.start _ :: ops, now => runningSum (some s) ops now
  | some s, Op.pause t :: ops, now => (t - s) + runningSum none ops now
  | some s, Op.tick _ :: ops, now => runningSum (some s) ops now

/-- The interval callback of the naive variant: `setInterval` at 1000 ms
firing `setElapsed(t => t + 1)` — the displayed counter is incremented by
one per scheduler firing. -/
def naiveInc (t : Int) : Int := t + 1

/-- The naive displayed counter after a number of scheduler firings. -/
def naiveRun (c : Int) : Nat → Int
  | 0 => c
  | n + 1 => naiveRun (naiveInc c) n

/-- Run a schedule of tick firings (a list of timestamps) through the
anchored engine. -/
def ticksAt (e : Engine) (ts : List Int) : Engine :=
  ts.foldl (fun s t => (tick s t).engine) e

/-- The bell decision of the `bellNextMs` variant tick handler: if
`bellNextMs` is unset (null, or 0 which is falsy) it is armed at
`now + period`; when `now` has reached `bellNextMs` the bell plays once
and `bellNextMs` advances by
`Math.max(1, Math.floor((now - bellNextMs) / period) + 1)` periods.
Returns the new `bellNextMs` and the number of bell events played. -/
def bellNextTick (now : Int) (bellNext : Option Int) (period : Int) : Option Int × Nat :=
  if 0 < period then
    let bn := match bellNext with
      | none => now + period
      | some v => if v = 0 then now + period else v
    if bn ≤ now then
      (some (bn + max 1 ((now - bn) / period + 1) * period), 1)
    else (some bn, 0)
  else (bellNext, 0)

/-! ### Unfolding lemmas for the operations -/

theorem start_running (e : Engine) (t : Int) : (start e t).1.running = true := by
  unfold start
  rcases h : e.hasStarted <;> simp [h]

theorem start_hasStarted (e : Engine) (t : Int) : (start e t).1.hasStarted = true := by
  unfold start
  rcases h : e.hasStarted <;> simp [h]

theorem start_offsetMs (e : Engine) (t : Int) : (start e t).1.offsetMs = e.offsetMs := by
  unfold start
  rcases h : e.hasStarted <;> simp [h]

theorem start_bellInterval (e : Engine) (t : Int) :
    (start e t).1.bellInterval = e.bellInterval := by
  unfold start
  rcases h : e.hasStarted <;> simp [h]

theorem start_elapsed (e : Engine) (t : Int) : (start e t).1.elapsed = e.elapsed := by
  unfold start
  rcases h : e.hasStarted <;> simp [h]

theorem start_anchorMs (e : Engine) (t : Int) :
    (start e t).1.anchorMs =
      (if e.running = false && e.anchorMs.isNone then some t else e.anchorMs) := by
  unfold start
  rcases h : e.hasStarted <;> simp [h]

theorem start_lastBellCount (e : Engine) (t : Int) :
    (start e t).1.lastBellCount = (if e.hasStarted = true then e.lastBellCount else 0) := by
  unfold start
  rcases h : e.hasStarted <;> simp [h]

theorem start_snd (e : Engine) (t : Int) :
    (start e t).2 = (if e.hasStarted = true then 0 else 1) := by
  unfold start
  rcases h : e.hasStarted <;> simp [h]

theorem pause_not_running {e : Engine} (h : e.running = false) (t : Int) : pause e t = e := by
  unfold pause; simp [h]

theorem pause_running_some {e : Engine} {a : Int} (h : e.running = true)
    (ha : e.anchorMs = some a) (t : Int) :
    pause e t =
      { e with offsetMs := e.offsetMs + (t - a), anchorMs := none, running := false } := by
  unfold pause; simp [h, ha]

theorem pause_running_none {e : Engine} (h : e.running = true)
    (ha : e.anchorMs = none) (t : Int) :
    pause e t = { e with running := false } := by
  unfold pause; simp [h, ha]

theorem tick_not_running {e : Engine} (h : e.running = false) (t : Int) :
    tick e t = ⟨e, 0⟩ := by
  unfold tick; simp [h]

theorem tick_engine_running (e : Engine) (t : Int) :
    (tick e t).engine.running = e.running := by
  unfold tick
  split
  · simp_all
  · dsimp only
    split
    · split <;> simp_all
    · simp_all

theorem tick_engine_offsetMs (e : Engine) (t : Int) :
    (tick e t).engine.offsetMs = e.offsetMs := by
  unfold tick
  split
  · rfl
  · dsimp only
    split
    · split <;> rfl
    · rfl

theorem tick_engine_hasStarted (e : Engine) (t : Int) :
    (tick e t).engine.hasStarted = e.hasStarted := by
  unfold tick
  split
  · rfl
  · dsimp only
    split
    · split <;> rfl
    · rfl

theorem tick_engine_bellInterval (e : Engine) (t : Int) :
    (tick e t).engine.bellInterval = e.bellInterval := by
  unfold tick
  split
  · rfl
  · dsimp only
    split
    · split <;> rfl
    · rfl

theorem tick_engine_anchorMs {e : Engine} (h : e.running = true) (t : Int) :
    (tick e t).engine.anchorMs = some (e.anchorMs.getD t) := by
  unfold tick
  split
  · simp_all
  · dsimp only
    split
    · split <;> rfl
    · rfl

theorem tick_engine_elapsed {e : Engine} (h : e.running = true) (t : Int) :
    (tick e t).engine.elapsed = max 0 ((e.offsetMs + (t - e.anchorMs.getD t)) / 1000) := by
  unfold tick
  split
  · simp_all
  · dsimp only
    split
    · split <;> rfl
    · rfl

theorem tick_bells_le_one (e : Engine) (t : Int) : (tick e t).bells ≤ 1 := by
  unfold tick
  split
  · exact Nat.zero_le 1
  · dsimp only
    split
    · split
      · exact Nat.le_refl 1
      · exact Nat.zero_le 1
    · exact Nat.zero_le 1

theorem pause_hasStarted (e : Engine) (t : Int) : (pause e t).hasStarted = e.hasStarted := by
  unfold pause
  split
  · rfl
  · rcases h : e.anchorMs <;> simp [h]

theorem pause_bellInterval (e : Engine) (t : Int) :
    (pause e t).bellInterval = e.bellInterval := by
  unfold pause
  split
  · rfl
  · rcases h : e.anchorMs <;> simp [h]

theorem pause_elapsed (e : Engine) (t : Int) : (pause e t).elapsed = e.elapsed := by
  unfold pause
  split
  · rfl
  · rcases h : e.anchorMs <;> simp [h]

theorem pause_lastBellCount (e : Engine) (t : Int) :
    (pause e t).lastBellCount = e.lastBellCount := by
  unfold pause
  split
  · rfl
  · rcases h : e.anchorMs <;> simp [h]

/-! ### Trace lemmas -/

theorem run_nil (e : Engine) : run e [] = e := rfl

theorem run_cons (e : Engine) (op : Op) (ops : List Op) :
    run e (op :: ops) = run (step e op) ops := rfl

theorem run_append (e : Engine) (l₁ l₂ : List Op) :
    run e (l₁ ++ l₂) = run (run e l₁) l₂ :=
  List.foldl_append step e l₁ l₂

theorem step_bellInterval (e : Engine) (op : Op) :
    (step e op).bellInterval = e.bellInterval := by
  rcases op with t | t | t
  · exact start_bellInterval e t
  · exact pause_bellInterval e t
  · exact tick_engine_bellInterval e t

theorem run_bellInterval (ops : List Op) : ∀ e : Engine,
    (run e ops).bellInterval = e.bellInterval := by
  induction ops with
  | nil => intro e; rfl
  | cons op rest ih =>
      intro e
      rw [run_cons, ih, step_bellInterval]

theorem step_hasStarted {e : Engine} (op : Op) (h : e.hasStarted = true) :
    (step e op).hasStarted = true := by
  rcases op with t | t | t
  · exact start_hasStarted e t
  · rw [step, pause_hasStarted]; exact h
  · rw [step, tick_engine_hasStarted]; exact h

theorem run_hasStarted (ops : List Op) : ∀ e : Engine, e.hasStarted = true →
    (run e ops).hasStarted = true := by
  induction ops with
  | nil => intro e h; exact h
  | cons op rest ih =>
      intro e h
      rw [run_cons]
      exact ih _ (step_hasStarted op h)

/-- The §3 invariant tying the anchor to the state: the anchor is set iff
the engine is Running. -/
def Inv (e : Engine) : Prop := e.running = true ↔ e.anchorMs ≠ none

theorem inv_init (b : Int) : Inv (Engine.init b) := by
  constructor
  · intro h; cases h
  · intro h; exact absurd rfl h

theorem inv_step {e : Engine} (h : Inv e) (op : Op) : Inv (step e op) := by
  rcases op with t | t | t
  · constructor
    · intro _
      rw [step, start_anchorMs]
      split
      · exact Option.some_ne_none t
      · rename_i hc
        rcases hr : e.running with _ | _
        · rcases ha : e.anchorMs with _ | a
          · exact absurd (by simp [hr, ha]) hc
          · simp [ha]
        · exact h.mp hr
    · intro _; exact start_running e t
  · by_cases hr : e.running = true
    · rcases ha : e.anchorMs with _ | a
      · rw [step, pause_running_none hr ha]
        constructor
        · intro hx; cases hx
        · intro hx; exact absurd ha hx
      · rw [step, pause_running_some hr ha]
        constructor
        · intro hx; cases hx
        · intro hx; exact absurd rfl hx
    · rw [step, pause_not_running (by simpa using hr)]
      exact h
  · by_cases hr : e.running = true
    · constructor
      · intro _
        rw [step, tick_engine_anchorMs hr]
        exact Option.some_ne_none _
      · intro _
        rw [step, tick_engine_running]
        exact hr
    · rw [step, tick_not_running (by simpa using hr)]
      exact h

theorem inv_run (ops : List Op) : ∀ e : Engine, Inv e → Inv (run e ops) := by
  induction ops with
  | nil => intro e h; exact h
  | cons op rest ih =>
      intro e h
      rw [run_cons]
      exact ih _ (inv_step h op)

/-! ### The engine computes the sum of the Running-interval durations -/

theorem runningSum_step {e : Engine} (h : Inv e) (op : Op) (rest : List Op) (now : Int) :
    (step e op).offsetMs + runningSum (step e op).anchorMs rest now =
      e.offsetMs + runningSum e.anchorMs (op :: rest) now := by
  rcases op with t | t | t
  · by_cases hr : e.running = true
    · obtain ⟨a, ha⟩ : ∃ a, e.anchorMs = some a := by
        rcases hx : e.anchorMs with _ | a
        · exact absurd hx (h.mp hr)
        · exact ⟨a, rfl⟩
      have h1 : (step e (Op.start t)).anchorMs = some a := by
        rw [step, start_anchorMs]
        simp [hr, ha]
      rw [h1, step, start_offsetMs, ha, runningSum]
    · have hr' : e.running = false := by simpa using hr
      have ha : e.anchorMs = none := by
        rcases hx : e.anchorMs with _ | a
        · rfl
        · exact absurd (h.mpr (by simp [hx])) hr
      have h1 : (step e (Op.start t)).anchorMs = some t := by
        rw [step, start_anchorMs]
        simp [hr', ha]
      rw [h1, step, start_offsetMs, ha, runningSum]
  · by_cases hr : e.running = true
    · obtain ⟨a, ha⟩ : ∃ a, e.anchorMs = some a := by
        rcases hx : e.anchorMs with _ | a
        · exact absurd hx (h.mp hr)
        · exact ⟨a, rfl⟩
      rw [step, pause_running_some hr ha, ha, runningSum]
      dsimp only
      ring
    · have hr' : e.running = false := by simpa using hr
      have ha : e.anchorMs = none := by
        rcases hx : e.anchorMs with _ | a
        · rfl
        · exact absurd (h.mpr (by simp [hx])) hr
      rw [step, pause_not_running hr', ha, runningSum]
  · by_cases hr : e.running = true
    · obtain ⟨a, ha⟩ : ∃ a, e.anchorMs = some a := by
        rcases hx : e.anchorMs with _ | a
        · exact absurd hx (h.mp hr)
        · exact ⟨a, rfl⟩
      have h1 : (step e (Op.tick t)).anchorMs = some a := by
        rw [step, tick_engine_anchorMs hr, ha]
        rfl
      rw [h1, step, tick_engine_offsetMs, ha, runningSum]
    · have hr' : e.running = false := by simpa using hr
      have ha : e.anchorMs = none := by
        rcases hx : e.anchorMs with _ | a
        · rfl
        · exact absurd (h.mpr (by simp [hx])) hr
      rw [step, tick_not_running hr', ha, runningSum]

theorem elapsedAt_run_eq (ops : List Op) : ∀ e : Engine, Inv e → ∀ now : Int,
    elapsedAt (run e ops) now = e.offsetMs + runningSum e.anchorMs ops now := by
  induction ops with
  | nil =>
      intro e _ now
      rcases h : e.anchorMs with _ | a <;> simp [run_nil, elapsedAt, runningSum, h]
  | cons op rest ih =>
      intro e hInv now
      rw [run_cons, ih _ (inv_step hInv op) now, runningSum_step hInv op rest now]

/-- The engine, run from a fresh state, measures exactly the sum of the
durations of the Running intervals of the event sequence. -/
theorem elapsedAt_run_init (b : Int) (ops : List Op) (now : Int) :
    elapsedAt (run (Engine.init b) ops) now = runningSum none ops now := by
  rw [elapsedAt_run_eq ops (Engine.init b) (inv_init b) now]
  simp [Engine.init]

/-! ### Monotonicity of elapsed time under non-decreasing timestamps -/

theorem elapsedAt_some {e : Engine} {a : Int} (h : e.anchorMs = some a) (u : Int) :
    elapsedAt e u = e.offsetMs + (u - a) := by
  unfold elapsedAt
  rw [h]

theorem elapsedAt_none {e : Engine} (h : e.anchorMs = none) (u : Int) :
    elapsedAt e u = e.offsetMs := by
  unfold elapsedAt
  rw [h]
  simp

theorem elapsedAt_mono (e : Engine) {t u : Int} (h : t ≤ u) :
    elapsedAt e t ≤ elapsedAt e u := by
  rcases ha : e.anchorMs with _ | a
  · rw [elapsedAt_none ha, elapsedAt_none ha]
  · rw [elapsedAt_some ha, elapsedAt_some ha]
    omega

theorem start_anchorMs_of_running {e : Engine} (hr : e.running = true) (t : Int) :
    (start e t).1.anchorMs = e.anchorMs := by
  rw [start_anchorMs]
  simp [hr]

theorem start_anchorMs_of_some {e : Engine} {a : Int} (ha : e.anchorMs = some a) (t : Int) :
    (start e t).1.anchorMs = some a := by
  rw [start_anchorMs]
  simp [ha]

theorem start_anchorMs_of_idle {e : Engine} (hr : e.running = false)
    (ha : e.anchorMs = none) (t : Int) : (start e t).1.anchorMs = some t := by
  rw [start_anchorMs]
  simp [hr, ha]

theorem tick_anchorMs_of_some {e : Engine} {a : Int} (hr : e.running = true)
    (ha : e.anchorMs = some a) (t : Int) : (tick e t).engine.anchorMs = some a := by
  rw [tick_engine_anchorMs hr, ha]
  rfl

theorem tick_anchorMs_of_none {e : Engine} (hr : e.running = true)
    (ha : e.anchorMs = none) (t : Int) : (tick e t).engine.anchorMs = some t := by
  rw [tick_engine_anchorMs hr, ha]
  rfl

theorem pause_anchorMs_of_none {e : Engine} (ha : e.anchorMs = none) (t : Int) :
    (pause e t).anchorMs = none := by
  unfold pause
  split
  · exact ha
  · rw [ha]

/-- Any anchor held by the engine lies in the past of instant `t`. -/
def anchorLe (e : Engine) (t : Int) : Prop := ∀ a, e.anchorMs = some a → a ≤ t

theorem anchorLe_mono {e : Engine} {t u : Int} (hA : anchorLe e t) (h : t ≤ u) :
    anchorLe e u :=
  fun a ha => le_trans (hA a ha) h

theorem anchorLe_start {e : Engine} {t t' : Int} (hA : anchorLe e t) (h : t ≤ t') :
    anchorLe (start e t').1 t' := by
  intro a ha
  rcases hx : e.anchorMs with _ | b
  · by_cases hr : e.running = true
    · rw [start_anchorMs_of_running hr, hx] at ha
      cases ha
    · rw [start_anchorMs_of_idle (by simpa using hr) hx] at ha
      injection ha with ha
      omega
  · rw [start_anchorMs_of_some hx] at ha
    injection ha with ha
    have := hA b hx
    omega

theorem anchorLe_pause {e : Engine} {t t' : Int} (hA : anchorLe e t) (h : t ≤ t') :
    anchorLe (pause e t') t' := by
  intro a ha
  by_cases hr : e.running = true
  · rcases hx : e.anchorMs with _ | b
    · rw [pause_running_none hr hx] at ha
      rw [show ({ e with running := false } : Engine).anchorMs = e.anchorMs from rfl, hx] at ha
      cases ha
    · rw [pause_running_some hr hx] at ha
      cases ha
  · rw [pause_not_running (by simpa using hr)] at ha
    exact le_trans (hA a ha) h

theorem anchorLe_tick {e : Engine} {t t' : Int} (hA : anchorLe e t) (h : t ≤ t') :
    anchorLe (tick e t').engine t' := by
  intro a ha
  by_cases hr : e.running = true
  · rcases hx : e.anchorMs with _ | b
    · rw [tick_anchorMs_of_none hr hx] at ha
      injection ha with ha
      omega
    · rw [tick_anchorMs_of_some hr hx] at ha
      injection ha with ha
      have := hA b hx
      omega
  · rw [tick_not_running (by simpa using hr)] at ha
    exact le_trans (hA a ha) h

theorem anchorLe_step {e : Engine} {t : Int} (op : Op) (hA : anchorLe e t)
    (h : t ≤ op.time) : anchorLe (step e op) op.time := by
  rcases op with t' | t' | t'
  · exact anchorLe_start hA h
  · exact anchorLe_pause hA h
  · exact anchorLe_tick hA h

theorem elapsedAt_start_mono {e : Engine} {t t' : Int} (hA : anchorLe e t) (h : t ≤ t') :
    elapsedAt e t ≤ elapsedAt (start e t').1 t' := by
  rcases hx : e.anchorMs with _ | b
  · by_cases hr : e.running = true
    · rw [elapsedAt_none hx, elapsedAt_none (e := (start e t').1)
        (by rw [start_anchorMs_of_running hr, hx]), start_offsetMs]
    · rw [elapsedAt_none hx, elapsedAt_some (start_anchorMs_of_idle (by simpa using hr) hx t'),
        start_offsetMs]
      omega
  · rw [elapsedAt_some hx, elapsedAt_some (start_anchorMs_of_some hx t'), start_offsetMs]
    have := hA b hx
    omega

theorem elapsedAt_pause_mono {e : Engine} {t t' : Int} (hA : anchorLe e t) (h : t ≤ t') :
    elapsedAt e t ≤ elapsedAt (pause e t') t' := by
  by_cases hr : e.running = true
  · rcases hx : e.anchorMs with _ | b
    · rw [pause_running_none hr hx, elapsedAt_none hx]
      simp [elapsedAt, hx]
    · rw [pause_running_some hr hx, elapsedAt_some hx]
      have := hA b hx
      simp only [elapsedAt]
      omega
  · rw [pause_not_running (by simpa using hr)]
    exact elapsedAt_mono e h

theorem elapsedAt_tick_mono {e : Engine} {t t' : Int} (hA : anchorLe e t) (h : t ≤ t') :
    elapsedAt e t ≤ elapsedAt (tick e t').engine t' := by
  by_cases hr : e.running = true
  · rcases hx : e.anchorMs with _ | b
    · rw [elapsedAt_none hx, elapsedAt_some (tick_anchorMs_of_none hr hx t'),
        tick_engine_offsetMs]
      omega
    · rw [elapsedAt_some hx, elapsedAt_some (tick_anchorMs_of_some hr hx t'),
        tick_engine_offsetMs]
      have := hA b hx
      omega
  · rw [tick_not_running (by simpa using hr)]
    exact elapsedAt_mono e h

theorem elapsedAt_step_mono {e : Engine} {t : Int} (op : Op) (hA : anchorLe e t)
    (h : t ≤ op.time) : elapsedAt e t ≤ elapsedAt (step e op) op.time := by
  rcases op with t' | t' | t'
  · exact elapsedAt_start_mono hA h
  · exact elapsedAt_pause_mono hA h
  · exact elapsedAt_tick_mono hA h

theorem chrono_cons (t : Int) (op : Op) (ops : List Op) :
    chrono t (op :: ops) = (decide (t ≤ op.time) && chrono op.time ops) := rfl

theorem elapsedAt_run_mono (ops : List Op) : ∀ (e : Engine) (t now : Int), anchorLe e t →
    chrono t (ops ++ [Op.tick now]) = true → elapsedAt e t ≤ elapsedAt (run e ops) now := by
  induction ops with
  | nil =>
      intro e t now _ hc
      rw [List.nil_append, chrono_cons] at hc
      simp only [Bool.and_eq_true, decide_eq_true_eq] at hc
      exact elapsedAt_mono e hc.1
  | cons op rest ih =>
      intro e t now hA hc
      rw [List.cons_append, chrono_cons] at hc
      simp only [Bool.and_eq_true, decide_eq_true_eq] at hc
      rw [run_cons]
      exact le_trans (elapsedAt_step_mono op hA hc.1)
        (ih (step e op) op.time now (anchorLe_step op hA hc.1) hc.2)

/-! ### Tick equations in the running state -/

theorem bellPeriodMs_start (e : Engine) (t : Int) :
    bellPeriodMs (start e t).1 = bellPeriodMs e := by
  unfold bellPeriodMs
  rw [start_bellInterval]

theorem bellPeriodMs_pause (e : Engine) (t : Int) :
    bellPeriodMs (pause e t) = bellPeriodMs e := by
  unfold bellPeriodMs
  rw [pause_bellInterval]

theorem bellPeriodMs_tick (e : Engine) (t : Int) :
    bellPeriodMs (tick e t).engine = bellPeriodMs e := by
  unfold bellPeriodMs
  rw [tick_engine_bellInterval]

theorem tick_eq_fire {e : Engine} {a : Int} (hr : e.running = true)
    (ha : e.anchorMs = some a) (t : Int) (hp : 0 < bellPeriodMs e)
    (hlt : e.lastBellCount < (e.offsetMs + (t - a)) / bellPeriodMs e) :
    tick e t =
      ⟨{ e with anchorMs := some a,
                elapsed := max 0 ((e.offsetMs + (t - a)) / 1000),
                lastBellCount := (e.offsetMs + (t - a)) / bellPeriodMs e }, 1⟩ := by
  have hp' : 0 < e.bellInterval * 60000 := hp
  have hlt' : e.lastBellCount < (e.offsetMs + (t - a)) / (e.bellInterval * 60000) := hlt
  unfold tick bellPeriodMs
  simp [hr, ha, hp', hlt']

theorem tick_eq_nofire {e : Engine} {a : Int} (hr : e.running = true)
    (ha : e.anchorMs = some a) (t : Int) (hp : 0 < bellPeriodMs e)
    (hge : ¬ e.lastBellCount < (e.offsetMs + (t - a)) / bellPeriodMs e) :
    tick e t =
      ⟨{ e with anchorMs := some a,
                elapsed := max 0 ((e.offsetMs + (t - a)) / 1000) }, 0⟩ := by
  have hp' : 0 < e.bellInterval * 60000 := hp
  have hge' : ¬ e.lastBellCount < (e.offsetMs + (t - a)) / (e.bellInterval * 60000) := hge
  unfold tick bellPeriodMs
  simp [hr, ha, hp', hge']

theorem tick_eq_noperiod {e : Engine} {a : Int} (hr : e.running = true)
    (ha : e.anchorMs = some a) (t : Int) (hp : ¬ 0 < bellPeriodMs e) :
    tick e t =
      ⟨{ e with anchorMs := some a,
                elapsed := max 0 ((e.offsetMs + (t - a)) / 1000) }, 0⟩ := by
  have hp' : ¬ 0 < e.bellInterval * 60000 := hp
  unfold tick bellPeriodMs
  simp [hr, ha, hp']

/-! ### Well-formedness along chronological traces -/

/-- All engine states reachable by chronological event sequences satisfy
this invariant at the current instant `t`: the anchor matches the Running
state and lies in the past, the accumulated and displayed times are
non-negative and the display lags the true elapsed milliseconds, and the
bell counter never exceeds the elapsed time divided by the period. -/
structure Wf (e : Engine) (t : Int) : Prop where
  inv : Inv e
  anchor_le : anchorLe e t
  offset_nonneg : 0 ≤ e.offsetMs
  elapsed_nonneg : 0 ≤ e.elapsed
  elapsed_le : e.elapsed * 1000 ≤ elapsedAt e t
  bell_nonneg : 0 ≤ e.lastBellCount
  bell_le : 0 < bellPeriodMs e → e.lastBellCount * bellPeriodMs e ≤ elapsedAt e t

theorem Wf.elapsedAt_nonneg {e : Engine} {t : Int} (w : Wf e t) : 0 ≤ elapsedAt e t :=
  le_trans (mul_nonneg w.elapsed_nonneg (by norm_num)) w.elapsed_le

theorem Wf.mono {e : Engine} {t u : Int} (w : Wf e t) (h : t ≤ u) : Wf e u where
  inv := w.inv
  anchor_le := anchorLe_mono w.anchor_le h
  offset_nonneg := w.offset_nonneg
  elapsed_nonneg := w.elapsed_nonneg
  elapsed_le := le_trans w.elapsed_le (elapsedAt_mono e h)
  bell_nonneg := w.bell_nonneg
  bell_le := fun hp => le_trans (w.bell_le hp) (elapsedAt_mono e h)

theorem wf_init (b t : Int) : Wf (Engine.init b) t where
  inv := inv_init b
  anchor_le := fun a ha => by cases ha
  offset_nonneg := le_refl 0
  elapsed_nonneg := le_refl 0
  elapsed_le := by rw [elapsedAt_none rfl]; norm_num [Engine.init]
  bell_nonneg := le_refl 0
  bell_le := fun _ => by rw [elapsedAt_none rfl]; norm_num [Engine.init]

theorem wf_start {e : Engine} {t t' : Int} (w : Wf e t) (h : t ≤ t') :
    Wf (start e t').1 t' := by
  have hmono : elapsedAt e t ≤ elapsedAt (start e t').1 t' :=
    elapsedAt_start_mono w.anchor_le h
  have h0 : 0 ≤ elapsedAt (start e t').1 t' := le_trans w.elapsedAt_nonneg hmono
  refine ⟨inv_step w.inv (Op.start t'), anchorLe_start w.anchor_le h, ?_, ?_, ?_, ?_, ?_⟩
  · rw [start_offsetMs]; exact w.offset_nonneg
  · rw [start_elapsed]; exact w.elapsed_nonneg
  · rw [start_elapsed]; exact le_trans w.elapsed_le hmono
  · rw [start_lastBellCount]
    split
    · exact w.bell_nonneg
    · exact le_refl 0
  · intro hp
    rw [bellPeriodMs_start] at hp
    rw [start_lastBellCount, bellPeriodMs_start]
    split
    · exact le_trans (w.bell_le hp) hmono
    · simpa using h0

theorem wf_pause {e : Engine} {t t' : Int} (w : Wf e t) (h : t ≤ t') :
    Wf (pause e t') t' := by
  by_cases hr : e.running = true
  · rcases hx : e.anchorMs with _ | a
    · exact absurd hx (w.inv.mp hr)
    · have hat := w.anchor_le a hx
      have hmono : elapsedAt e t ≤ elapsedAt (pause e t') t' :=
        elapsedAt_pause_mono w.anchor_le h
      have hP : elapsedAt (pause e t') t' = e.offsetMs + (t' - a) := by
        rw [pause_running_some hr hx]
        simp [elapsedAt]
      refine ⟨?_, ?_, ?_, ?_, ?_, ?_, ?_⟩
      · rw [pause_running_some hr hx]
        constructor
        · intro hc; cases hc
        · intro hc; exact absurd rfl hc
      · exact anchorLe_pause w.anchor_le h
      · rw [pause_running_some hr hx]
        dsimp only
        have := w.offset_nonneg
        omega
      · rw [pause_elapsed]; exact w.elapsed_nonneg
      · rw [pause_elapsed]; exact le_trans w.elapsed_le hmono
      · rw [pause_lastBellCount]; exact w.bell_nonneg
      · intro hp
        rw [bellPeriodMs_pause] at hp
        rw [pause_lastBellCount, bellPeriodMs_pause]
        exact le_trans (w.bell_le hp) hmono
  · rw [pause_not_running (by simpa using hr)]
    exact w.mono h

theorem wf_tick {e : Engine} {t t' : Int} (w : Wf e t) (h : t ≤ t') :
    Wf (tick e t').engine t' := by
  by_cases hr : e.running = true
  · rcases hx : e.anchorMs with _ | a
    · exact absurd hx (w.inv.mp hr)
    · have hat := w.anchor_le a hx
      have hEt : elapsedAt e t' = e.offsetMs + (t' - a) := elapsedAt_some hx t'
      have hE0 : 0 ≤ e.offsetMs + (t' - a) := by
        have := le_trans w.elapsedAt_nonneg (elapsedAt_mono e h)
        omega
      have hle : elapsedAt e t ≤ e.offsetMs + (t' - a) := by
        have := elapsedAt_mono e h
        omega
      have hsecs : max 0 ((e.offsetMs + (t' - a)) / 1000) * 1000 ≤ e.offsetMs + (t' - a) := by
        rw [max_eq_right (Int.ediv_nonneg hE0 (by norm_num))]
        exact Int.ediv_mul_le _ (by norm_num)
      by_cases hp : 0 < bellPeriodMs e
      · by_cases hlt : e.lastBellCount < (e.offsetMs + (t' - a)) / bellPeriodMs e
        · rw [tick_eq_fire hr hx t' hp hlt]
          refine ⟨?_, ?_, ?_, ?_, ?_, ?_, ?_⟩
          · constructor
            · intro _; exact Option.some_ne_none a
            · intro _; exact hr
          · intro x hxx
            injection hxx with hxx
            omega
          · exact w.offset_nonneg
          · exact le_max_left 0 _
          · rw [elapsedAt_some rfl]
            exact hsecs
          · exact Int.ediv_nonneg hE0 (le_of_lt hp)
          · intro hp'
            rw [elapsedAt_some rfl]
            exact Int.ediv_mul_le _ (ne_of_gt hp)
        · rw [tick_eq_nofire hr hx t' hp hlt]
          refine ⟨?_, ?_, ?_, ?_, ?_, ?_, ?_⟩
          · constructor
            · intro _; exact Option.some_ne_none a
            · intro _; exact hr
          · intro x hxx
            injection hxx with hxx
            omega
          · exact w.offset_nonneg
          · exact le_max_left 0 _
          · rw [elapsedAt_some rfl]
            exact hsecs
          · exact w.bell_nonneg
          · intro hp'
            rw [elapsedAt_some rfl]
            exact le_trans (w.bell_le hp) hle
      · rw [tick_eq_noperiod hr hx t' hp]
        refine ⟨?_, ?_, ?_, ?_, ?_, ?_, ?_⟩
        · constructor
          · intro _; exact Option.some_ne_none a
          · intro _; exact hr
        · intro x hxx
          injection hxx with hxx
          omega
        · exact w.offset_nonneg
        · exact le_max_left 0 _
        · rw [elapsedAt_some rfl]
          exact hsecs
        · exact w.bell_nonneg
        · intro hp'
          exact absurd hp' hp
  · rw [tick_not_running (by simpa using hr)]
    exact w.mono h

theorem wf_step {e : Engine} {t : Int} (op : Op) (w : Wf e t) (h : t ≤ op.time) :
    Wf (step e op) op.time := by
  rcases op with t' | t' | t'
  · exact wf_start w h
  · exact wf_pause w h
  · exact wf_tick w h

theorem wf_run (ops : List Op) : ∀ (e : Engine) (t : Int), Wf e t →
    chrono t ops = true → Wf (run e ops) (lastTime t ops) := by
  induction ops with
  | nil => intro e t w _; exact w
  | cons op rest ih =>
      intro e t w hc
      rw [chrono_cons] at hc
      simp only [Bool.and_eq_true, decide_eq_true_eq] at hc
      rw [run_cons]
      exact ih _ _ (wf_step op w hc.1) hc.2

/-! ### The displayed seconds never decrease along chronological traces -/

theorem elapsed_tick_mono {e : Engine} {t t' : Int} (w : Wf e t) (h : t ≤ t') :
    e.elapsed ≤ (tick e t').engine.elapsed := by
  by_cases hr : e.running = true
  · rcases hx : e.anchorMs with _ | a
    · exact absurd hx (w.inv.mp hr)
    · rw [tick_engine_elapsed hr, hx]
      simp only [Option.getD_some]
      have h1 : e.elapsed * 1000 ≤ e.offsetMs + (t' - a) := by
        have h2 := elapsedAt_mono e h
        have h3 := elapsedAt_some hx t'
        have h4 := w.elapsed_le
        omega
      have h5 : e.elapsed ≤ (e.offsetMs + (t' - a)) / 1000 :=
        (Int.le_ediv_iff_mul_le (by norm_num)).mpr h1
      exact le_trans h5 (le_max_right 0 _)
  · rw [tick_not_running (by simpa using hr)]

theorem elapsed_step_mono {e : Engine} {t : Int} (op : Op) (w : Wf e t) (h : t ≤ op.time) :
    e.elapsed ≤ (step e op).elapsed := by
  rcases op with t' | t' | t'
  · rw [step, start_elapsed]
  · rw [step, pause_elapsed]
  · exact elapsed_tick_mono w h

theorem elapsed_run_mono (ops : List Op) : ∀ (e : Engine) (t : Int), Wf e t →
    chrono t ops = true → e.elapsed ≤ (run e ops).elapsed := by
  induction ops with
  | nil => intro e t _ _; exact le_refl _
  | cons op rest ih =>
      intro e t w hc
      rw [chrono_cons] at hc
      simp only [Bool.and_eq_true, decide_eq_true_eq] at hc
      rw [run_cons]
      exact le_trans (elapsed_step_mono op w hc.1) (ih _ _ (wf_step op w hc.1) hc.2)

theorem elapsed_nonneg_step {e : Engine} (op : Op) (h : 0 ≤ e.elapsed) :
    0 ≤ (step e op).elapsed := by
  rcases op with t' | t' | t'
  · rw [step, start_elapsed]; exact h
  · rw [step, pause_elapsed]; exact h
  · by_cases hr : e.running = true
    · rw [step, tick_engine_elapsed hr]
      exact le_max_left 0 _
    · rw [step, tick_not_running (by simpa using hr)]
      exact h

theorem elapsed_nonneg_run (ops : List Op) : ∀ e : Engine, 0 ≤ e.elapsed →
    0 ≤ (run e ops).elapsed := by
  induction ops with
  | nil => intro e h; exact h
  | cons op rest ih =>
      intro e h
      rw [run_cons]
      exact ih _ (elapsed_nonneg_step op h)

/-! ### Chronology decomposition -/

theorem chrono_append (l₁ : List Op) : ∀ (t : Int) (l₂ : List Op),
    chrono t (l₁ ++ l₂) = (chrono t l₁ && chrono (lastTime t l₁) l₂) := by
  induction l₁ with
  | nil => intro t l₂; simp [chrono, lastTime]
  | cons op rest ih =>
      intro t l₂
      rw [List.cons_append, chrono_cons, chrono_cons, ih op.time l₂, lastTime,
        Bool.and_assoc]

theorem le_lastTime (ops : List Op) : ∀ t : Int, chrono t ops = true →
    t ≤ lastTime t ops := by
  induction ops with
  | nil => intro t _; exact le_refl t
  | cons op rest ih =>
      intro t hc
      rw [chrono_cons] at hc
      simp only [Bool.and_eq_true, decide_eq_true_eq] at hc
      exact le_trans hc.1 (ih op.time hc.2)

/-! ### Auxiliary results for the individual operations -/

theorem start_of_running_hasStarted {e : Engine} (hr : e.running = true)
    (hs : e.hasStarted = true) (t : Int) : start e t = (e, 0) := by
  rcases e with ⟨r, h, an, o, l, el, bi⟩
  simp only at hr hs
  subst hr
  subst hs
  unfold start
  simp

theorem bellNextTick_bells_le_one (now : Int) (bn : Option Int) (p : Int) :
    (bellNextTick now bn p).2 ≤ 1 := by
  unfold bellNextTick
  split
  · dsimp only
    split
    · exact Nat.le_refl 1
    · exact Nat.zero_le 1
  · exact Nat.zero_le 1

theorem naiveRun_eq (n : Nat) : ∀ c : Int, naiveRun c n = c + n := by
  induction n with
  | zero => intro c; simp [naiveRun]
  | succ m ih =>
      intro c
      rw [naiveRun, naiveInc, ih]
      push_cast
      ring

theorem ticksAt_nil (e : Engine) : ticksAt e [] = e := rfl

theorem ticksAt_cons (e : Engine) (t : Int) (ts : List Int) :
    ticksAt e (t :: ts) = ticksAt (tick e t).engine ts := rfl

theorem ticksAt_elapsed : ∀ (ts : List Int) (hne : ts ≠ []) (e : Engine) (a : Int),
    e.running = true → e.anchorMs = some a →
    (ticksAt e ts).elapsed = max 0 ((e.offsetMs + (ts.getLast hne - a)) / 1000)
  | [], hne, _, _, _, _ => absurd rfl hne
  | [t], _, e, a, hr, ha => by
      rw [ticksAt_cons, ticksAt_nil, tick_engine_elapsed hr, ha]
      simp [List.getLast]
  | t :: t₂ :: rest, hne, e, a, hr, ha => by
      rw [ticksAt_cons]
      have hr₂ : (tick e t).engine.running = true := by
        rw [tick_engine_running]; exact hr
      have ha₂ : (tick e t).engine.anchorMs = some a := tick_anchorMs_of_some hr ha t
      rw [ticksAt_elapsed (t₂ :: rest) (List.cons_ne_nil t₂ rest) _ a hr₂ ha₂,
        tick_engine_offsetMs, List.getLast_cons (List.cons_ne_nil t₂ rest)]

/-! ### Claim theorems -/

/-- C2: every single `tick` call fires at most one bell event, no matter
how many bell-period boundaries elapsed since the previous tick; with
`bellPeriodMs = 60000` (a one-minute interval), starting at 0 and ticking
once at 200000 ms of Running time fires exactly one bell and leaves the
fired-bell count at 3; an immediately repeated tick fires nothing.  The
`bellNextMs` variant of the repository also plays at most one bell per
tick. -/
theorem c2_single_bell_per_tick :
    (∀ (e : Engine) (now : Int), (tick e now).bells ≤ 1) ∧
    (tick (start (Engine.init 1) 0).1 200000).bells = 1 ∧
    (tick (start (Engine.init 1) 0).1 200000).engine.lastBellCount = 3 ∧
    (tick (tick (start (Engine.init 1) 0).1 200000).engine 200000).bells = 0 ∧
    (∀ (now : Int) (bn : Option Int) (p : Int), (bellNextTick now bn p).2 ≤ 1) := by
  refine ⟨tick_bells_le_one, ?_, ?_, ?_, bellNextTick_bells_le_one⟩ <;> decide

/-- C4: the very first `start` of a fresh session signals exactly one
immediate session-start bell event, whatever the bell interval is, and no
later `start` of the same session (after any sequence of start, pause and
tick calls) signals it again. -/
theorem c4_session_start_bell (b t₀ t : Int) (ops : List Op) :
    (start (Engine.init b) t₀).2 = 1 ∧
    (start (run (start (Engine.init b) t₀).1 ops) t).2 = 0 := by
  constructor
  · rw [start_snd]
    simp [Engine.init]
  · rw [start_snd, run_hasStarted ops _ (start_hasStarted _ _)]
    simp

/-- C6 counterexample: with a clock that goes backwards between `start`
and `pause`, the pause folds a negative delta into the accumulated time
without clamping, so `accumulatedMs` becomes negative — the claim that
every negative computed delta is clamped to zero and `accumulatedMs`
stays non-negative after every operation is false on this code. -/
theorem c6_counterexample :
    (pause (start (Engine.init 10) 100).1 0).offsetMs = -100 ∧
    ¬ (0 ≤ (pause (start (Engine.init 10) 100).1 0).offsetMs) := by
  decide

/-- C6 amended: the engine does not clamp negative deltas; only the
displayed seconds are clamped through `Math.max(0, ...)` in `tick`, so
the display is non-negative after every call sequence, even with a
backwards clock; the accumulated milliseconds are non-negative only when
the timestamps are non-decreasing. -/
theorem c6_amended (b : Int) (ops ops₂ : List Op) (h : chrono 0 ops = true) :
    0 ≤ (run (Engine.init b) ops).offsetMs ∧
    0 ≤ (run (Engine.init b) ops).elapsed ∧
    0 ≤ (run (Engine.init b) ops₂).elapsed := by
  have w := wf_run ops (Engine.init b) 0 (wf_init b 0) h
  exact ⟨w.offset_nonneg, w.elapsed_nonneg, elapsed_nonneg_run ops₂ _ (le_refl 0)⟩

/-- Witness for the amended C6: a chronological trace keeps the offset and
display non-negative, and even a trace whose clock jumps backwards keeps
the display non-negative. -/
theorem c6_amended_witness :
    chrono 0 [Op.start 0, Op.pause 1000] = true ∧
    (0 ≤ (run (Engine.init 1) [Op.start 0, Op.pause 1000]).offsetMs ∧
      0 ≤ (run (Engine.init 1) [Op.start 0, Op.pause 1000]).elapsed ∧
      0 ≤ (run (Engine.init 1) [Op.start 100, Op.tick 0, Op.pause 0]).elapsed) :=
  ⟨by decide, c6_amended 1 [Op.start 0, Op.pause 1000]
    [Op.start 100, Op.tick 0, Op.pause 0] (by decide)⟩

/-- C7: `reset` called in any state returns the engine to Idle with zero
display, zero accumulated time, no anchor and a zero bell counter, and
leaves the selected bell interval untouched; the elapsed time at any
instant is 0 afterwards. -/
theorem c7_reset_unconditional (e : Engine) (now : Int) :
    (reset e).running = false ∧ (reset e).hasStarted = false ∧
    (reset e).elapsed = 0 ∧ (reset e).offsetMs = 0 ∧
    (reset e).anchorMs = none ∧ (reset e).lastBellCount = 0 ∧
    (reset e).bellInterval = e.bellInterval ∧ elapsedAt (reset e) now = 0 := by
  refine ⟨rfl, rfl, rfl, rfl, rfl, rfl, rfl, ?_⟩
  rw [elapsedAt_none rfl]
  rfl

/-- C8: `start` is idempotent — a second `start` without an intervening
`pause` leaves the engine state exactly as after the first one (no
double-counted time, no anchor change, no bell-schedule change) and
signals no bell event. -/
theorem c8_start_idempotent (e : Engine) (t₁ t₂ : Int) :
    start (start e t₁).1 t₂ = ((start e t₁).1, 0) :=
  start_of_running_hasStarted (start_running e t₁) (start_hasStarted e t₁) t₂

/-- C10: the immediate session-start bell does not consume a periodic
bell: the first `start` signals the session-start bell yet leaves the
periodic bell counter at 0, and the first periodic bell fires at the
first tick whose elapsed Running time has reached the bell period —
neither earlier nor replaced. -/
theorem c10_session_bell_does_not_consume_periodic (b t₀ now : Int) (hb : 0 < b) :
    (start (Engine.init b) t₀).2 = 1 ∧
    (start (Engine.init b) t₀).1.lastBellCount = 0 ∧
    ((tick (start (Engine.init b) t₀).1 now).bells = 1 ↔ b * 60000 ≤ now - t₀) := by
  refine ⟨?_, ?_, ?_⟩
  · rw [start_snd]
    simp [Engine.init]
  · rw [start_lastBellCount]
    simp [Engine.init]
  · have hr : (start (Engine.init b) t₀).1.running = true := start_running _ _
    have ha : (start (Engine.init b) t₀).1.anchorMs = some t₀ :=
      start_anchorMs_of_idle rfl rfl t₀
    have ho : (start (Engine.init b) t₀).1.offsetMs = 0 := start_offsetMs _ _
    have hl : (start (Engine.init b) t₀).1.lastBellCount = 0 := by
      rw [start_lastBellCount]
      simp [Engine.init]
    have hbi : (start (Engine.init b) t₀).1.bellInterval = b := start_bellInterval _ _
    have hP : bellPeriodMs (start (Engine.init b) t₀).1 = b * 60000 := by
      unfold bellPeriodMs
      rw [hbi]
    have hp : 0 < bellPeriodMs (start (Engine.init b) t₀).1 := by
      rw [hP]
      exact mul_pos hb (by norm_num)
    constructor
    · intro hf
      by_cases hlt : (start (Engine.init b) t₀).1.lastBellCount <
          ((start (Engine.init b) t₀).1.offsetMs + (now - t₀)) /
            bellPeriodMs (start (Engine.init b) t₀).1
      · rw [hl, ho, hP] at hlt
        have h1 : 1 ≤ (0 + (now - t₀)) / (b * 60000) := hlt
        have h2 := (Int.le_ediv_iff_mul_le (mul_pos hb (by norm_num))).mp h1
        omega
      · rw [tick_eq_nofire hr ha now hp hlt] at hf
        simp at hf
    · intro hge
      have hlt : (start (Engine.init b) t₀).1.lastBellCount <
          ((start (Engine.init b) t₀).1.offsetMs + (now - t₀)) /
            bellPeriodMs (start (Engine.init b) t₀).1 := by
        rw [hl, ho, hP]
        have h1 : 1 * (b * 60000) ≤ 0 + (now - t₀) := by omega
        exact lt_of_lt_of_le zero_lt_one
          ((Int.le_ediv_iff_mul_le (mul_pos hb (by norm_num))).mpr h1)
      rw [tick_eq_fire hr ha now hp hlt]

/-- Witness for C10: with a one-minute period, starting at 0, the first
periodic bell fires at the tick at exactly 60000 ms. -/
theorem c10_witness :
    (0 : Int) < 1 ∧
    ((start (Engine.init 1) 0).2 = 1 ∧
      (start (Engine.init 1) 0).1.lastBellCount = 0 ∧
      ((tick (start (Engine.init 1) 0).1 60000).bells = 1 ↔
        (1 : Int) * 60000 ≤ 60000 - 0)) :=
  ⟨by decide, c10_session_bell_does_not_consume_periodic 1 0 60000 (by decide)⟩

/-- C5: pausing and resuming does not shift the bell schedule.  For a
running session, pausing at `p` and resuming at an arbitrary later (or
even earlier) instant `s` leaves the elapsed Running time, the bell
decision and the bell counter of a tick taken `d` milliseconds after the
resume identical to those of a tick taken `d` milliseconds after the
pause point in the uninterrupted engine — the wall-clock pause duration
is irrelevant, and the resume does not re-arm the next bell. -/
theorem c5_pause_resume_preserves_bell_phase (e : Engine) (a p s d : Int)
    (hr : e.running = true) (ha : e.anchorMs = some a) (hs : e.hasStarted = true) :
    elapsedAt (start (pause e p) s).1 (s + d) = elapsedAt e (p + d) ∧
    (tick (start (pause e p) s).1 (s + d)).bells = (tick e (p + d)).bells ∧
    (tick (start (pause e p) s).1 (s + d)).engine.lastBellCount
      = (tick e (p + d)).engine.lastBellCount := by
  have heq := pause_running_some hr ha p
  have h2r : (pause e p).running = false := by rw [heq]
  have h2a : (pause e p).anchorMs = none := by rw [heq]
  have h2s : (pause e p).hasStarted = true := by rw [pause_hasStarted]; exact hs
  have h2o : (pause e p).offsetMs = e.offsetMs + (p - a) := by rw [heq]
  have h3r : (start (pause e p) s).1.running = true := start_running _ _
  have h3a : (start (pause e p) s).1.anchorMs = some s :=
    start_anchorMs_of_idle h2r h2a s
  have h3o : (start (pause e p) s).1.offsetMs = e.offsetMs + (p - a) := by
    rw [start_offsetMs, h2o]
  have h3l : (start (pause e p) s).1.lastBellCount = e.lastBellCount := by
    rw [start_lastBellCount, if_pos h2s, pause_lastBellCount]
  have h3b : (start (pause e p) s).1.bellInterval = e.bellInterval := by
    rw [start_bellInterval, pause_bellInterval]
  have hP : bellPeriodMs (start (pause e p) s).1 = bellPeriodMs e := by
    unfold bellPeriodMs
    rw [h3b]
  have hE : (start (pause e p) s).1.offsetMs + (s + d - s) = e.offsetMs + (p + d - a) := by
    rw [h3o]
    ring
  refine ⟨?_, ?_⟩
  · rw [elapsedAt_some h3a, elapsedAt_some ha, h3o]
    ring
  · by_cases hp : 0 < bellPeriodMs e
    · by_cases hlt : e.lastBellCount < (e.offsetMs + (p + d - a)) / bellPeriodMs e
      · have hlt₃ : (start (pause e p) s).1.lastBellCount <
            ((start (pause e p) s).1.offsetMs + (s + d - s)) /
              bellPeriodMs (start (pause e p) s).1 := by
          rw [h3l, hE, hP]
          exact hlt
        rw [tick_eq_fire h3r h3a (s + d) (by rw [hP]; exact hp) hlt₃,
          tick_eq_fire hr ha (p + d) hp hlt]
        refine ⟨rfl, ?_⟩
        dsimp only
        rw [hE, hP]
      · have hge₃ : ¬ (start (pause e p) s).1.lastBellCount <
            ((start (pause e p) s).1.offsetMs + (s + d - s)) /
              bellPeriodMs (start (pause e p) s).1 := by
          rw [h3l, hE, hP]
          exact hlt
        rw [tick_eq_nofire h3r h3a (s + d) (by rw [hP]; exact hp) hge₃,
          tick_eq_nofire hr ha (p + d) hp hlt]
        refine ⟨rfl, ?_⟩
        dsimp only
        rw [h3l]
    · rw [tick_eq_noperiod h3r h3a (s + d) (by rw [hP]; exact hp),
        tick_eq_noperiod hr ha (p + d) hp]
      refine ⟨rfl, ?_⟩
      dsimp only
      rw [h3l]

/-- Witness for C5: a session started at 0 that pauses at 59000 and
resumes much later, at 1000000, fires its bell on the tick 2000 ms after
the resume exactly as the uninterrupted engine fires it at 61000 ms. -/
theorem c5_witness :
    (start (Engine.init 1) 0).1.running = true ∧
    (start (Engine.init 1) 0).1.anchorMs = some 0 ∧
    (start (Engine.init 1) 0).1.hasStarted = true ∧
    (elapsedAt (start (pause (start (Engine.init 1) 0).1 59000) 1000000).1 (1000000 + 2000)
        = elapsedAt (start (Engine.init 1) 0).1 (59000 + 2000) ∧
      (tick (start (pause (start (Engine.init 1) 0).1 59000) 1000000).1 (1000000 + 2000)).bells
        = (tick (start (Engine.init 1) 0).1 (59000 + 2000)).bells ∧
      (tick (start (pause (start (Engine.init 1) 0).1 59000) 1000000).1
          (1000000 + 2000)).engine.lastBellCount
        = (tick (start (Engine.init 1) 0).1 (59000 + 2000)).engine.lastBellCount) :=
  ⟨by decide, by decide, by decide,
    c5_pause_resume_preserves_bell_phase (start (Engine.init 1) 0).1 0 59000 1000000 2000
      (by decide) (by decide) (by decide)⟩

/-- C9: the wall-clock-anchored tick is schedule-independent — after any
non-empty schedule of tick firings over one Running interval anchored at
`s`, the displayed seconds equal the floor of the total Running
wall-time over 1000, a function of the last firing instant only — while
the naive once-per-firing counter of the `setInterval(..., 1000)` variant
reports the number of firings; the two agree exactly when the firing
count matches the elapsed seconds. -/
theorem c9_anchored_vs_naive_counter (b s : Int) (ts : List Int) (hne : ts ≠ []) :
    (ticksAt (start (Engine.init b) s).1 ts).elapsed
      = max 0 ((ts.getLast hne - s) / 1000) ∧
    naiveRun 0 ts.length = (ts.length : Int) ∧
    ((ticksAt (start (Engine.init b) s).1 ts).elapsed = naiveRun 0 ts.length ↔
      max 0 ((ts.getLast hne - s) / 1000) = (ts.length : Int)) := by
  have hr : (start (Engine.init b) s).1.running = true := start_running _ _
  have ha : (start (Engine.init b) s).1.anchorMs = some s :=
    start_anchorMs_of_idle rfl rfl s
  have h1 := ticksAt_elapsed ts hne _ s hr ha
  rw [start_offsetMs] at h1
  have h0 : (Engine.init b).offsetMs = 0 := rfl
  rw [h0, zero_add] at h1
  have h2 : naiveRun 0 ts.length = (ts.length : Int) := by
    rw [naiveRun_eq]
    ring
  refine ⟨h1, h2, ?_⟩
  rw [h1, h2]

/-- Witness for C9: a single firing at 5000 ms makes the anchored display
read 5 while the naive counter reads 1 (a missed-firings schedule on
which they differ), whereas a one-firing-per-second schedule makes both
read 3. -/
theorem c9_witness :
    (([5000] : List Int) ≠ []) ∧
    ((ticksAt (start (Engine.init 10) 0).1 [5000]).elapsed
        = max 0 ((([5000] : List Int).getLast (by decide) - 0) / 1000) ∧
      naiveRun 0 ([5000] : List Int).length = (([5000] : List Int).length : Int) ∧
      ((ticksAt (start (Engine.init 10) 0).1 [5000]).elapsed
          = naiveRun 0 ([5000] : List Int).length ↔
        max 0 ((([5000] : List Int).getLast (by decide) - 0) / 1000)
          = (([5000] : List Int).length : Int))) ∧
    (ticksAt (start (Engine.init 10) 0).1 [5000]).elapsed = 5 ∧
    naiveRun 0 1 = 1 ∧
    (ticksAt (start (Engine.init 10) 0).1 [1000, 2000, 3000]).elapsed = 3 ∧
    naiveRun 0 3 = 3 :=
  ⟨by decide, c9_anchored_vs_naive_counter 10 0 [5000] (by decide),
    by decide, by decide, by decide, by decide⟩

/-- C1: along any chronological sequence of start, pause and tick events,
the elapsed time of the engine at instant `now` equals the sum of the
durations of all Running intervals of the sequence; a tick taken while
Running displays the floor of that sum in seconds; and the display at a
later tick of any chronological continuation is never below the display
at an earlier tick. -/
theorem c1_elapsed_sum_and_monotone (b : Int) (ops : List Op) (now : Int)
    (h : chrono 0 (ops ++ [Op.tick now]) = true) :
    elapsedAt (run (Engine.init b) ops) now = runningSum none ops now ∧
    ((run (Engine.init b) ops).running = true →
      (tick (run (Engine.init b) ops) now).engine.elapsed
        = max 0 (runningSum none ops now / 1000)) ∧
    ∀ (more : List Op) (now₂ : Int),
      chrono now (more ++ [Op.tick now₂]) = true →
      (tick (run (Engine.init b) ops) now).engine.elapsed
        ≤ (tick (run (Engine.init b) (ops ++ Op.tick now :: more)) now₂).engine.elapsed := by
  have hsplit : chrono 0 ops = true ∧ lastTime 0 ops ≤ now := by
    rw [chrono_append] at h
    simp only [Bool.and_eq_true] at h
    have h2 := h.2
    rw [chrono_cons] at h2
    simp only [Bool.and_eq_true, decide_eq_true_eq] at h2
    exact ⟨h.1, h2.1⟩
  have w : Wf (run (Engine.init b) ops) (lastTime 0 ops) :=
    wf_run ops _ 0 (wf_init b 0) hsplit.1
  have hEq := elapsedAt_run_init b ops now
  refine ⟨hEq, ?_, ?_⟩
  · intro hr
    rcases hx : (run (Engine.init b) ops).anchorMs with _ | a
    · exact absurd hx (w.inv.mp hr)
    · rw [tick_engine_elapsed hr, hx]
      simp only [Option.getD_some]
      rw [← hEq, elapsedAt_some hx]
  · intro more now₂ h3
    have w2 : Wf (step (run (Engine.init b) ops) (Op.tick now)) now :=
      wf_tick w hsplit.2
    have h4 : (tick (run (Engine.init b) ops) now).engine.elapsed
        ≤ (run (step (run (Engine.init b) ops) (Op.tick now))
            (more ++ [Op.tick now₂])).elapsed :=
      elapsed_run_mono (more ++ [Op.tick now₂]) _ now w2 h3
    have h5 : run (step (run (Engine.init b) ops) (Op.tick now)) (more ++ [Op.tick now₂])
        = (tick (run (Engine.init b) (ops ++ Op.tick now :: more)) now₂).engine := by
      rw [run_append, run_append (Engine.init b) ops (Op.tick now :: more), run_cons,
        run_cons]
      rfl
    rw [h5] at h4
    exact h4

/-- Witness for C1, on the scenario of the specification: start at 0,
tick at 1000 displays 1 second; pause at 1000; tick at 5000 leaves the
display unchanged; start at 5000; the tick at 7000 displays 3 seconds,
the sum of the two Running intervals. -/
theorem c1_witness :
    chrono 0 ([Op.start 0, Op.tick 1000, Op.pause 1000, Op.tick 5000, Op.start 5000]
        ++ [Op.tick 7000]) = true ∧
    elapsedAt (run (Engine.init 10)
        [Op.start 0, Op.tick 1000, Op.pause 1000, Op.tick 5000, Op.start 5000]) 7000
      = runningSum none
          [Op.start 0, Op.tick 1000, Op.pause 1000, Op.tick 5000, Op.start 5000] 7000 ∧
    runningSum none
        [Op.start 0, Op.tick 1000, Op.pause 1000, Op.tick 5000, Op.start 5000] 7000 = 3000 ∧
    (run (Engine.init 10) [Op.start 0, Op.tick 1000]).elapsed = 1 ∧
    (run (Engine.init 10) [Op.start 0, Op.tick 1000, Op.pause 1000, Op.tick 5000]).elapsed
      = 1 ∧
    (tick (run (Engine.init 10)
        [Op.start 0, Op.tick 1000, Op.pause 1000, Op.tick 5000, Op.start 5000])
      7000).engine.elapsed = 3 :=
  ⟨by decide,
    (c1_elapsed_sum_and_monotone 10
      [Op.start 0, Op.tick 1000, Op.pause 1000, Op.tick 5000, Op.start 5000] 7000
      (by decide)).1,
    by decide, by decide, by decide, by decide⟩

/-- C3 counterexample: the claim asserts the settle equation after any
tick call, but a tick made while Paused is a no-op: after start at 0 and
pause at 90000 with a one-minute period, the tick at 100000 leaves the
fired-bell count at 0 although the floor of elapsed time over the period
is 1. -/
theorem c3_counterexample :
    chrono 0 [Op.start 0, Op.pause 90000, Op.tick 100000] = true ∧
    (tick (run (Engine.init 1) [Op.start 0, Op.pause 90000]) 100000).engine.lastBellCount
      = 0 ∧
    elapsedAt (run (Engine.init 1) [Op.start 0, Op.pause 90000]) 100000 /
      bellPeriodMs (run (Engine.init 1) [Op.start 0, Op.pause 90000]) = 1 ∧
    (0 : Int) ≠ 1 := by
  decide

/-- C3 amended: after any tick call that finds the engine Running, in a
chronological trace with a positive period, the fired-bell count equals
the floor of the elapsed milliseconds over the bell period; consequently
a bell can fire at a tick only once the elapsed time has reached the
period, never earlier.  (A tick made while Paused or Idle is a no-op and
can leave the count below the floor.) -/
theorem c3_settle_equation (b now : Int) (ops : List Op) (hb : 0 < b)
    (h : chrono 0 (ops ++ [Op.tick now]) = true) :
    ((run (Engine.init b) ops).running = true →
      (tick (run (Engine.init b) ops) now).engine.lastBellCount
        = elapsedAt (run (Engine.init b) ops) now / (b * 60000)) ∧
    ((tick (run (Engine.init b) ops) now).bells = 1 →
      b * 60000 ≤ elapsedAt (run (Engine.init b) ops) now) := by
  have hsplit : chrono 0 ops = true ∧ lastTime 0 ops ≤ now := by
    rw [chrono_append] at h
    simp only [Bool.and_eq_true] at h
    have h2 := h.2
    rw [chrono_cons] at h2
    simp only [Bool.and_eq_true, decide_eq_true_eq] at h2
    exact ⟨h.1, h2.1⟩
  have w : Wf (run (Engine.init b) ops) (lastTime 0 ops) :=
    wf_run ops _ 0 (wf_init b 0) hsplit.1
  have hbi : (run (Engine.init b) ops).bellInterval = b := by
    rw [run_bellInterval]
    rfl
  have hP : bellPeriodMs (run (Engine.init b) ops) = b * 60000 := by
    unfold bellPeriodMs
    rw [hbi]
  have hp : 0 < bellPeriodMs (run (Engine.init b) ops) := by
    rw [hP]
    exact mul_pos hb (by norm_num)
  constructor
  · intro hr
    rcases hx : (run (Engine.init b) ops).anchorMs with _ | a
    · exact absurd hx (w.inv.mp hr)
    · have hEt : elapsedAt (run (Engine.init b) ops) now
          = (run (Engine.init b) ops).offsetMs + (now - a) := elapsedAt_some hx now
      have hle : (run (Engine.init b) ops).lastBellCount *
          bellPeriodMs (run (Engine.init b) ops)
          ≤ (run (Engine.init b) ops).offsetMs + (now - a) := by
        have := le_trans (w.bell_le hp) (elapsedAt_mono _ hsplit.2)
        rw [hEt] at this
        exact this
      have hle2 : (run (Engine.init b) ops).lastBellCount ≤
          ((run (Engine.init b) ops).offsetMs + (now - a)) /
            bellPeriodMs (run (Engine.init b) ops) :=
        (Int.le_ediv_iff_mul_le hp).mpr hle
      by_cases hlt : (run (Engine.init b) ops).lastBellCount <
          ((run (Engine.init b) ops).offsetMs + (now - a)) /
            bellPeriodMs (run (Engine.init b) ops)
      · rw [tick_eq_fire hr hx now hp hlt]
        dsimp only
        rw [hEt, ← hP]
      · have heq2 : (run (Engine.init b) ops).lastBellCount =
            ((run (Engine.init b) ops).offsetMs + (now - a)) /
              bellPeriodMs (run (Engine.init b) ops) :=
          le_antisymm hle2 (not_lt.mp hlt)
        rw [tick_eq_nofire hr hx now hp hlt]
        dsimp only
        rw [heq2, hEt, ← hP]
  · intro hf
    by_cases hr : (run (Engine.init b) ops).running = true
    · rcases hx : (run (Engine.init b) ops).anchorMs with _ | a
      · exact absurd hx (w.inv.mp hr)
      · by_cases hlt : (run (Engine.init b) ops).lastBellCount <
            ((run (Engine.init b) ops).offsetMs + (now - a)) /
              bellPeriodMs (run (Engine.init b) ops)
        · have h0 : 0 ≤ (run (Engine.init b) ops).lastBellCount := w.bell_nonneg
          have h1 : 1 ≤ ((run (Engine.init b) ops).offsetMs + (now - a)) /
              bellPeriodMs (run (Engine.init b) ops) := by omega
          have h2 := (Int.le_ediv_iff_mul_le hp).mp h1
          rw [elapsedAt_some hx, ← hP]
          omega
        · rw [tick_eq_nofire hr hx now hp hlt] at hf
          simp at hf
    · rw [tick_not_running (by simpa using hr)] at hf
      simp at hf

/-- Witness for the amended C3: a session with a one-minute period
started at 0 settles its bell count to 0 at the tick at 250 ms, matching
the floor of 250 over 60000, and that tick fires no bell. -/
theorem c3_settle_equation_witness :
    (0 : Int) < 1 ∧
    chrono 0 ([Op.start 0] ++ [Op.tick 250]) = true ∧
    (((run (Engine.init 1) [Op.start 0]).running = true →
      (tick (run (Engine.init 1) [Op.start 0]) 250).engine.lastBellCount
        = elapsedAt (run (Engine.init 1) [Op.start 0]) 250 / (1 * 60000)) ∧
    ((tick (run (Engine.init 1) [Op.start 0]) 250).bells = 1 →
      (1 : Int) * 60000 ≤ elapsedAt (run (Engine.init 1) [Op.start 0]) 250)) :=
  ⟨by decide, by decide, c3_settle_equation 1 250 [Op.start 0] (by decide) (by decide)⟩

end ZenSense
